import Mathlib

/-!
# Work-item indexing and stride loops (`migraphx/kernels/index.hpp`)

A shallow embedding of the kernel index header: the size resolver
(`compute_global_size`, `compute_local_size`, the `MIGRAPHX_NGROUP` and
`MIGRAPHX_HAS_CONST_LOCAL` macros), the accessors of `struct index`, the
stride iteration engine (`max_stride_iterations`, `for_stride_loop`,
`for_stride_loop_unroll`, `for_stride`) and `make_index`.

Conventions of the embedding.

* `index_int` values are natural numbers (`Nat`); sums and products are the
  unbounded ones.  The header subtracts one in three places (`n - 1`,
  `ngroup - 1`, `nglobal - 1`); `index_sub_one` is exact on a positive operand
  and at 0 gives `index_max`, the value the unsigned subtraction wraps to, which
  is a parameter of the embedding.
* Division is the one of `Nat`.  A divisor is zero only for a stride or a local
  size of 0, which every statement below excludes or meets at the assertion
  `start < stride` first.
* A callback `f` is never interpreted: a run records the list of calls
  `f(i, k)` it makes, in order.
* The runtime loop is given an iteration budget (`fuel`); using the budget up
  is reported as `Status.out_of_fuel`.
* Where a statement is about the width of `index_int`, the `_w` definitions
  take every sum and difference modulo `2 ^ w`.
* The preprocessor configuration is a `Build` value, the HIP launch state read
  through `blockDim`, `gridDim`, `blockIdx`, `threadIdx` is a `hip_state`.
-/

namespace migraphx

/-! ## Data model -/

/-- One callback invocation `invoke_loop(f, i, k)`: the position and the counter. -/
abbrev Call := Nat × Nat

/-- The two ways a check of the header can refuse: a run-time `MIGRAPHX_ASSERT`
and a build-time `static_assert`. -/
inductive Fault where
  | assert_failed
  | static_assert_failed
  deriving DecidableEq, Repr

/-- How a run ended. -/
inductive Status where
  | finished
  | fault (f : Fault)
  | out_of_fuel
  deriving DecidableEq, Repr

/-- A run of a stride primitive: the callback invocations made, in order, and
how the run ended. -/
structure Run where
  calls : List Call
  status : Status
  deriving DecidableEq, Repr

/-- An extent or stride argument of `for_stride`: a run-time `index_int`
(`is_integral` holds of its type) or an `integral_constant` (it does not). -/
inductive Arg where
  | runtime (v : Nat)
  | constant (v : Nat)
  deriving DecidableEq, Repr

/-- The numeric value of an argument. -/
def Arg.val : Arg → Nat
  | .runtime v => v
  | .constant v => v

/-- The trait `is_integral<N>` of the argument's type. -/
def Arg.is_integral : Arg → Bool
  | .runtime _ => true
  | .constant _ => false

/-- The preprocessor configuration of a kernel build. -/
structure Build where
  MIGRAPHX_NGLOBAL : Option Nat
  MIGRAPHX_NLOCAL : Option Nat
  MIGRAPHX_DEBUG : Bool
  deriving DecidableEq, Repr

/-- The HIP launch state a thread reads.  `blockDim_mul_gridDim` is the value of
the expression `blockDim.x * gridDim.x`: the header's comment in
`compute_global_size` records that this is not a multiplication but a device
function returning the global size, so it is a value of its own. -/
structure hip_state where
  blockDim_x : Nat
  gridDim_x : Nat
  blockIdx_x : Nat
  threadIdx_x : Nat
  blockDim_mul_gridDim : Nat
  deriving DecidableEq, Repr

/-- The header's `struct index`. -/
structure index where
  global : Nat
  local_ : Nat
  group : Nat
  deriving DecidableEq, Repr

/-- The build with both sizes fixed: `MIGRAPHX_NGLOBAL = G`, `MIGRAPHX_NLOCAL = L`. -/
def Build.fixed (G L : Nat) (debug : Bool) : Build :=
  { MIGRAPHX_NGLOBAL := some G, MIGRAPHX_NLOCAL := some L, MIGRAPHX_DEBUG := debug }

/-- The build with neither size fixed: all sizes come from the launch state. -/
def Build.dynamic (debug : Bool) : Build :=
  { MIGRAPHX_NGLOBAL := none, MIGRAPHX_NLOCAL := none, MIGRAPHX_DEBUG := debug }

/-- The launch state as seen from group `g`: `blockIdx.x = g`. -/
def hip_state.in_group (hw : hip_state) (g : Nat) : hip_state :=
  { hw with blockIdx_x := g }

/-! ## Size resolver -/

/-- The expression `x - 1` on `index_int`: exact for `x ≥ 1`; at 0 the unsigned
subtraction wraps to the largest `index_int`, `index_max`. -/
def index_sub_one (index_max x : Nat) : Nat :=
  if x = 0 then index_max else x - 1

/-- The macro `MIGRAPHX_NGROUP`, defined when both sizes are fixed. -/
def MIGRAPHX_NGROUP (b : Build) : Option Nat :=
  match b.MIGRAPHX_NGLOBAL, b.MIGRAPHX_NLOCAL with
  | some G, some L => some ((G + L - 1) / L)
  | _, _ => none

/-- The function `compute_global_size`. -/
def compute_global_size (b : Build) (hw : hip_state) : Nat :=
  match b.MIGRAPHX_NGLOBAL with
  | some G => G
  | none => hw.blockDim_mul_gridDim

/-- The function `compute_local_size`. -/
def compute_local_size (index_max : Nat) (b : Build) (hw : hip_state) : Nat :=
  let nlocal :=
    match b.MIGRAPHX_NLOCAL with
    | some L => L
    | none => hw.blockDim_x
  let ngroup :=
    match MIGRAPHX_NGROUP b with
    | some NG => NG
    | none => hw.gridDim_x
  let group_id := hw.blockIdx_x
  let nglobal := compute_global_size b hw
  if group_id = index_sub_one index_max ngroup then
    1 + index_sub_one index_max nglobal % nlocal
  else nlocal

/-- The macro `MIGRAPHX_HAS_CONST_LOCAL`: whether it is defined. -/
def MIGRAPHX_HAS_CONST_LOCAL (b : Build) : Bool :=
  match b.MIGRAPHX_NGLOBAL, b.MIGRAPHX_NLOCAL, MIGRAPHX_NGROUP b with
  | some G, some L, some NG => G % L == 0 || NG == 1
  | _, _, _ => false

/-- Modelled from the spec: `MIGRAPHX_ASSERT` comes from `debug.hpp`, which is
not part of the sources.  The check halts in a debug build and is compiled out
otherwise; the result is the fault to raise, if any. -/
def MIGRAPHX_ASSERT (debug : Bool) (cond : Bool) : Option Fault :=
  if debug && !cond then some Fault.assert_failed else none

/-- The language's `static_assert`: the build is refused when the condition fails. -/
def static_assert (cond : Bool) : Option Fault :=
  if cond then none else some Fault.static_assert_failed

/-- The accessor `index::nglobal`. -/
def index.nglobal (b : Build) (hw : hip_state) : Except Fault Nat :=
  match b.MIGRAPHX_NGLOBAL with
  | some G =>
    match static_assert (decide (G > 0)) with
    | some e => .error e
    | none => .ok G
  | none =>
    match MIGRAPHX_ASSERT b.MIGRAPHX_DEBUG (decide (compute_global_size b hw > 0)) with
    | some e => .error e
    | none => .ok (compute_global_size b hw)

/-- The variant of `index::nlocal` compiled under `MIGRAPHX_HAS_CONST_LOCAL`:
the constant `MIGRAPHX_NLOCAL`. -/
def index.nlocal_const (L : Nat) : Except Fault Nat :=
  match static_assert (decide (L > 0)) with
  | some e => .error e
  | none => .ok L

/-- The variant of `index::nlocal` compiled otherwise: `compute_local_size()`,
behind a static assertion (when `MIGRAPHX_NGROUP` is defined) and a run-time one. -/
def index.nlocal_computed (index_max : Nat) (b : Build) (hw : hip_state) : Except Fault Nat :=
  let guard :=
    match b.MIGRAPHX_NGLOBAL, b.MIGRAPHX_NLOCAL, MIGRAPHX_NGROUP b with
    | some G, some L, some NG => static_assert (G % L != 0 && decide (NG > 1))
    | _, _, _ => none
  match guard with
  | some e => .error e
  | none =>
    match MIGRAPHX_ASSERT b.MIGRAPHX_DEBUG
        (decide (compute_local_size index_max b hw > 0)) with
    | some e => .error e
    | none => .ok (compute_local_size index_max b hw)

/-- The accessor `index::nlocal`: the build selects one of its two variants. -/
def index.nlocal (index_max : Nat) (b : Build) (hw : hip_state) : Except Fault Nat :=
  match MIGRAPHX_HAS_CONST_LOCAL b, b.MIGRAPHX_NLOCAL with
  | true, some L => index.nlocal_const L
  | _, _ => index.nlocal_computed index_max b hw

/-- The accessor `index::max_nlocal`. -/
def index.max_nlocal (b : Build) (hw : hip_state) : Except Fault Nat :=
  match b.MIGRAPHX_NLOCAL with
  | some L => .ok L
  | none =>
    match MIGRAPHX_ASSERT b.MIGRAPHX_DEBUG (decide (hw.blockDim_x > 0)) with
    | some e => .error e
    | none => .ok hw.blockDim_x

/-- The accessor `index::ngroup`: `nglobal() / max_nlocal()`. -/
def index.ngroup (b : Build) (hw : hip_state) : Except Fault Nat :=
  match index.nglobal b hw with
  | .error e => .error e
  | .ok g =>
    match index.max_nlocal b hw with
    | .error e => .error e
    | .ok l => .ok (g / l)

/-- The factory `make_index`. -/
def make_index (hw : hip_state) : index :=
  { global := hw.blockIdx_x * hw.blockDim_x + hw.threadIdx_x
    local_ := hw.threadIdx_x
    group := hw.blockIdx_x }

/-! ## Stride iteration engine -/

/-- The function `index::max_stride_iterations`: `(n - 1) / stride + 1`. -/
def max_stride_iterations (index_max n stride : Nat) : Nat :=
  index_sub_one index_max n / stride + 1

/-- The overloads of `index::invoke_loop`: the callback is called with the
position `i` and the counter `d` (or with `i` alone, when it takes one
argument); the call is recorded as the pair. -/
abbrev invoke_loop (i d : Nat) : Call :=
  (i, d)

/-- Modelled from the spec: `sequence` comes from `functional.hpp`, which is
not part of the sources.  `sequence(c, g)` hands `g` the constants
`0, 1, …, c - 1`, one per expanded step. -/
def sequence (c : Nat) : List Nat :=
  List.range c

/-- Modelled from the spec: `fold` comes from `functional.hpp`, which is not
part of the sources.  `fold(g)(init, ks...)` is the left fold of `g` over the
arguments. -/
def fold {σ : Type} (g : σ → Nat → σ) (init : σ) (ks : List Nat) : σ :=
  ks.foldl g init

/-- One expanded step of `for_stride_loop_unroll`: the lambda handed to `fold`.
The folded value is the counter `d`; the calls made so far are carried along. -/
def unroll_step (start n stride : Nat) (acc : List Call × Nat) (k : Nat) :
    List Call × Nat :=
  let d := acc.2
  let i := start + stride * k
  (if i < n then acc.1 ++ [invoke_loop i d] else acc.1, d + 1)

/-- The function `index::for_stride_loop_unroll`. -/
def for_stride_loop_unroll (index_max start n stride : Nat) : Run :=
  { calls := (fold (unroll_step start n stride) ([], 0)
      (sequence (max_stride_iterations index_max n stride))).1
    status := Status.finished }

/-- The loop of `index::for_stride_loop` from the state `(i, k)`, with an
iteration budget. -/
def for_stride_loop_from (n stride : Nat) : Nat → Nat → Nat → Run
  | 0, i, _ =>
    if i < n then { calls := [], status := Status.out_of_fuel }
    else { calls := [], status := Status.finished }
  | fuel + 1, i, k =>
    if i < n then
      let rest := for_stride_loop_from n stride fuel (i + stride) (k + 1)
      { calls := invoke_loop i k :: rest.calls, status := rest.status }
    else { calls := [], status := Status.finished }

/-- The function `index::for_stride_loop`: `k = 0`, `i = start`. -/
def for_stride_loop (fuel : Nat) (start n stride : Nat) : Run :=
  for_stride_loop_from n stride fuel start 0

/-- Modelled from the spec: `MIGRAPHX_STATIC_ASSERT_FOR` comes from `debug.hpp`,
which is not part of the sources.  The unrolled expansion is used only when the
iteration count is below the ceiling; the condition is a static assertion, so a
build above the ceiling is refused and makes no call. -/
def MIGRAPHX_STATIC_ASSERT_FOR (cond : Bool) (body : Run) : Run :=
  match static_assert cond with
  | some e => { calls := [], status := Status.fault e }
  | none => body

/-- The function `index::for_stride`, for the template argument `Unroll`. -/
def for_stride (index_max : Nat) (debug : Bool) (Unroll : Bool) (fuel : Nat)
    (start : Nat) (n stride : Arg) : Run :=
  match MIGRAPHX_ASSERT debug (decide (start < stride.val)) with
  | some e => { calls := [], status := Status.fault e }
  | none =>
    if !n.is_integral && !stride.is_integral then
      if max_stride_iterations index_max n.val stride.val = 1 then
        if stride.val > n.val then
          if start < n.val then { calls := [invoke_loop start 0], status := Status.finished }
          else { calls := [], status := Status.finished }
        else { calls := [invoke_loop start 0], status := Status.finished }
      else if Unroll then
        MIGRAPHX_STATIC_ASSERT_FOR
          (decide (max_stride_iterations index_max n.val stride.val < 256))
          (for_stride_loop_unroll index_max start n.val stride.val)
      else for_stride_loop fuel start n.val stride.val
    else for_stride_loop fuel start n.val stride.val

/-- The stride argument an accessor hands to `for_stride`: an
`integral_constant` when the accessor is `constexpr` on constants, a run-time
value otherwise. -/
def stride_arg (is_const : Bool) (v : Nat) : Arg :=
  if is_const then Arg.constant v else Arg.runtime v

/-- Run `for_stride` on the result of an accessor, passing its fault on. -/
def with_stride (s : Except Fault Nat) (k : Nat → Run) : Run :=
  match s with
  | .error e => { calls := [], status := Status.fault e }
  | .ok v => k v

/-- The member `index::global_stride`. -/
def index.global_stride (index_max : Nat) (b : Build) (hw : hip_state) (idx : index)
    (fuel : Nat) (n : Arg) : Run :=
  with_stride (index.nglobal b hw) fun s =>
    for_stride index_max b.MIGRAPHX_DEBUG false fuel idx.global n
      (stride_arg b.MIGRAPHX_NGLOBAL.isSome s)

/-- The member `index::local_stride`. -/
def index.local_stride (index_max : Nat) (b : Build) (hw : hip_state) (idx : index)
    (fuel : Nat) (n : Arg) : Run :=
  with_stride (index.nlocal index_max b hw) fun s =>
    for_stride index_max b.MIGRAPHX_DEBUG true fuel idx.local_ n
      (stride_arg (MIGRAPHX_HAS_CONST_LOCAL b) s)

/-- The member `index::group_stride`. -/
def index.group_stride (index_max : Nat) (b : Build) (hw : hip_state) (idx : index)
    (fuel : Nat) (n : Arg) : Run :=
  with_stride (index.ngroup b hw) fun s =>
    for_stride index_max b.MIGRAPHX_DEBUG false fuel idx.group n
      (stride_arg (b.MIGRAPHX_NGLOBAL.isSome && b.MIGRAPHX_NLOCAL.isSome) s)

/-! ## Trip counts -/

/-- The number of iterations of the loop body a run of `for_stride_loop` has
executed: the body makes exactly one call per iteration. -/
def Run.iterations (r : Run) : Nat :=
  r.calls.length

/-- The number of expanded steps `for_stride_loop_unroll` executes: the final
value of the folded counter `d`, which every step increments. -/
def for_stride_loop_unroll_steps (index_max start n stride : Nat) : Nat :=
  (fold (unroll_step start n stride) ([], 0)
    (sequence (max_stride_iterations index_max n stride))).2

/-! ## The header on a `w`-bit `index_int` -/

/-- The difference `a - b` of two `w`-bit unsigned integers, modulo `2 ^ w`. -/
def sub_w (w a b : Nat) : Nat :=
  (a + 2 ^ w - b % 2 ^ w) % 2 ^ w

/-- The sum `a + b` of two `w`-bit unsigned integers, modulo `2 ^ w`. -/
def add_w (w a b : Nat) : Nat :=
  (a + b) % 2 ^ w

/-- The function `index::max_stride_iterations` on a `w`-bit `index_int`:
`(n - 1) / stride + 1` with every step modulo `2 ^ w`. -/
def max_stride_iterations_w (w n stride : Nat) : Nat :=
  add_w w (sub_w w n 1 / stride) 1

/-- The loop of `index::for_stride_loop` on a `w`-bit `index_int`, from the
state `(i, k)`: `i += stride` and `k++` are taken modulo `2 ^ w`. -/
def for_stride_loop_from_w (w n stride : Nat) : Nat → Nat → Nat → Run
  | 0, i, _ =>
    if i < n then { calls := [], status := Status.out_of_fuel }
    else { calls := [], status := Status.finished }
  | fuel + 1, i, k =>
    if i < n then
      let rest := for_stride_loop_from_w w n stride fuel (add_w w i stride) (add_w w k 1)
      { calls := invoke_loop i k :: rest.calls, status := rest.status }
    else { calls := [], status := Status.finished }

/-- The function `index::for_stride_loop` on a `w`-bit `index_int`. -/
def for_stride_loop_w (w fuel start n stride : Nat) : Run :=
  for_stride_loop_from_w w n stride fuel start 0

/-! ## Threads of a launch -/

/-- The launch state read by thread `l` of group `g` in a launch of `G` threads
in groups of `L`: `blockDim.x = L`, `gridDim.x = (G + L - 1) / L`,
`blockIdx.x = g`, `threadIdx.x = l`, and `blockDim.x * gridDim.x` reporting `G`. -/
def thread_state (G L g l : Nat) : hip_state :=
  { blockDim_x := L
    gridDim_x := (G + L - 1) / L
    blockIdx_x := g
    threadIdx_x := l
    blockDim_mul_gridDim := G }

/-! ## Reference quantities used in the statements -/

/-- The instantiation of `for_stride` passes the static assertion of its
unrolled branch: with `Unroll` set and both arguments constants, the iteration
count is below the ceiling 256. -/
def unroll_admitted (index_max : Nat) (Unroll : Bool) (n stride : Arg) : Prop :=
  Unroll = true → n.is_integral = false → stride.is_integral = false →
    max_stride_iterations index_max n.val stride.val < 256

instance (index_max : Nat) (Unroll : Bool) (n stride : Arg) :
    Decidable (unroll_admitted index_max Unroll n stride) := by
  unfold unroll_admitted
  infer_instance

/-- The number of `k` with `start + stride * k < n` (for `stride ≥ 1`): the
ceiling of `(n - start) / stride`. -/
def stride_trips (start n stride : Nat) : Nat :=
  (n - start + stride - 1) / stride

/-- The calls `(start + stride * k, k)` for `k = 0, 1, …, m - 1`. -/
def stride_calls (start stride : Nat) (m : Nat) : List Call :=
  (List.range m).map fun k => (start + stride * k, k)

/-! ## Auxiliary lemmas on the stride loops -/

theorem stride_trips_spec (start n stride k : Nat) (hs : 0 < stride) :
    k < stride_trips start n stride ↔ start + stride * k < n := by
  unfold stride_trips
  rw [Nat.lt_iff_add_one_le, Nat.le_div_iff_mul_le hs]
  have h : (k + 1) * stride = stride * k + stride := by ring
  rw [h]
  omega

theorem stride_trips_zero_of_ge (start n stride : Nat) (hs : 0 < stride) (h : n ≤ start) :
    stride_trips start n stride = 0 := by
  unfold stride_trips
  apply Nat.div_eq_of_lt
  omega

theorem stride_trips_succ (start n stride : Nat) (hs : 0 < stride) (h : start < n) :
    stride_trips start n stride = stride_trips (start + stride) n stride + 1 := by
  unfold stride_trips
  have e : n - start + stride - 1 = (n - (start + stride) + stride - 1) + stride ∨
      (n ≤ start + stride) := by omega
  rcases e with e | e
  · rw [e, Nat.add_div_right _ hs]
  · have h1 : (n - (start + stride) + stride - 1) / stride = 0 :=
      Nat.div_eq_of_lt (by omega)
    have h2 : n - start + stride - 1 = (n - start - 1) + stride := by omega
    have h3 : (n - start - 1) / stride = 0 := Nat.div_eq_of_lt (by omega)
    rw [h1, h2, Nat.add_div_right _ hs, h3]

theorem stride_trips_le (start n stride : Nat) (hs : 0 < stride) :
    stride_trips start n stride ≤ n := by
  by_contra hc
  have h := (stride_trips_spec start n stride n hs).1 (by omega)
  have : n ≤ stride * n := Nat.le_mul_of_pos_left n hs
  omega

theorem for_stride_loop_from_eq (n stride : Nat) (hs : 0 < stride) :
    ∀ (fuel i k : Nat), stride_trips i n stride ≤ fuel →
      for_stride_loop_from n stride fuel i k =
        { calls := (List.range (stride_trips i n stride)).map fun j => (i + stride * j, k + j)
          status := Status.finished } := by
  intro fuel
  induction fuel with
  | zero =>
    intro i k hf
    have h0 : stride_trips i n stride = 0 := by omega
    have hi : ¬ i < n := by
      intro hlt
      have := (stride_trips_spec i n stride 0 hs).2 (by simpa using hlt)
      omega
    simp [for_stride_loop_from, hi, h0]
  | succ fuel ih =>
    intro i k hf
    by_cases hi : i < n
    · have hsucc := stride_trips_succ i n stride hs hi
      have hrec := ih (i + stride) (k + 1) (by omega)
      simp only [for_stride_loop_from, hi, if_true, hrec, hsucc, List.range_succ_eq_map,
        List.map_cons, List.map_map]
      congr 1
      simp only [Nat.mul_zero, Nat.add_zero, List.cons.injEq, true_and]
      apply List.map_congr_left
      intro j _
      simp only [Function.comp, Nat.succ_eq_add_one, Prod.mk.injEq]
      constructor
      · ring
      · ring
    · have h0 := stride_trips_zero_of_ge i n stride hs (by omega)
      simp [for_stride_loop_from, hi, h0]

theorem for_stride_loop_eq (fuel start n stride : Nat) (hs : 0 < stride)
    (hf : stride_trips start n stride ≤ fuel) :
    for_stride_loop fuel start n stride =
      { calls := stride_calls start stride (stride_trips start n stride)
        status := Status.finished } := by
  unfold for_stride_loop stride_calls
  rw [for_stride_loop_from_eq n stride hs fuel start 0 hf]
  simp

theorem stride_calls_succ (start stride m : Nat) :
    stride_calls start stride (m + 1) =
      stride_calls start stride m ++ [(start + stride * m, m)] := by
  simp [stride_calls, List.range_succ]

theorem mem_stride_calls (start stride m i k : Nat) :
    (i, k) ∈ stride_calls start stride m ↔ k < m ∧ i = start + stride * k := by
  simp only [stride_calls, List.mem_map, List.mem_range, Prod.mk.injEq]
  constructor
  · rintro ⟨j, hj, h1, h2⟩
    subst h2
    exact ⟨hj, h1.symm⟩
  · rintro ⟨hk, hi⟩
    exact ⟨k, hk, hi.symm, rfl⟩

theorem stride_calls_length (start stride m : Nat) :
    (stride_calls start stride m).length = m := by
  simp [stride_calls]

theorem index_sub_one_pos (u x : Nat) (hx : 1 ≤ x) : index_sub_one u x = x - 1 := by
  unfold index_sub_one
  rw [if_neg (by omega)]

theorem max_stride_iterations_pos (u n stride : Nat) (hn : 1 ≤ n) :
    max_stride_iterations u n stride = (n - 1) / stride + 1 := by
  unfold max_stride_iterations
  rw [index_sub_one_pos u n hn]

theorem max_stride_iterations_eq_trips (u n stride : Nat) (hn : 1 ≤ n) (hs : 0 < stride) :
    max_stride_iterations u n stride = stride_trips 0 n stride := by
  rw [max_stride_iterations_pos u n stride hn]
  unfold stride_trips
  have h : n - 0 + stride - 1 = (n - 1) + stride := by omega
  rw [h, Nat.add_div_right _ hs]

theorem stride_trips_le_max (u start n stride : Nat) (hs : 0 < stride) :
    stride_trips start n stride ≤ max_stride_iterations u n stride := by
  rcases Nat.eq_zero_or_pos n with hn | hn
  · rw [stride_trips_zero_of_ge start n stride hs (by omega)]
    exact Nat.zero_le _
  · by_contra hc
    have hlt : max_stride_iterations u n stride < stride_trips start n stride :=
      Nat.lt_of_not_le hc
    have h := (stride_trips_spec start n stride _ hs).1 hlt
    rw [max_stride_iterations_pos u n stride hn] at h
    have hm := Nat.div_add_mod (n - 1) stride
    have hr := Nat.mod_lt (n - 1) hs
    have e : stride * ((n - 1) / stride + 1) = stride * ((n - 1) / stride) + stride := by ring
    rw [e] at h
    omega

theorem unroll_fold_eq (start n stride : Nat) (hs : 0 < stride) (c : Nat) :
    fold (unroll_step start n stride) ([], 0) (sequence c) =
      (stride_calls start stride (min c (stride_trips start n stride)), c) := by
  unfold fold sequence
  induction c with
  | zero => simp [stride_calls]
  | succ c ih =>
    rw [List.range_succ, List.foldl_append, ih]
    simp only [List.foldl_cons, List.foldl_nil, unroll_step]
    have hspec := stride_trips_spec start n stride c hs
    by_cases hc : c < stride_trips start n stride
    · have hi : start + stride * c < n := hspec.1 hc
      have e1 : min c (stride_trips start n stride) = c := by omega
      have e2 : min (c + 1) (stride_trips start n stride) = c + 1 := by omega
      rw [e1, e2, if_pos hi, stride_calls_succ]
    · have hi : ¬ start + stride * c < n := fun h => hc (hspec.2 h)
      have e1 : min c (stride_trips start n stride) = stride_trips start n stride := by omega
      have e2 : min (c + 1) (stride_trips start n stride) = stride_trips start n stride := by omega
      rw [e1, e2, if_neg hi]

theorem for_stride_loop_unroll_eq (u start n stride : Nat) (hs : 0 < stride) :
    for_stride_loop_unroll u start n stride =
      { calls := stride_calls start stride (stride_trips start n stride)
        status := Status.finished } := by
  unfold for_stride_loop_unroll
  rw [unroll_fold_eq start n stride hs]
  have := stride_trips_le_max u start n stride hs
  simp only [Nat.min_eq_right this]

theorem MIGRAPHX_ASSERT_of_true (debug : Bool) (p : Prop) [Decidable p] (hp : p) :
    MIGRAPHX_ASSERT debug (decide p) = none := by
  simp [MIGRAPHX_ASSERT, hp]

theorem stride_trips_one (start n stride : Nat) (hs : 0 < stride) (h1 : start < n)
    (h2 : n ≤ start + stride) : stride_trips start n stride = 1 := by
  rw [stride_trips_succ start n stride hs h1, stride_trips_zero_of_ge _ _ _ hs h2]

theorem max_stride_iterations_eq_one (u n stride : Nat) (hn : 1 ≤ n) (hs : 0 < stride) :
    max_stride_iterations u n stride = 1 ↔ n ≤ stride := by
  rw [max_stride_iterations_pos u n stride hn]
  constructor
  · intro h
    have h0 : (n - 1) / stride = 0 := by omega
    have h' := (Nat.div_eq_zero_iff hs).1 h0
    omega
  · intro h
    have h0 : (n - 1) / stride = 0 := Nat.div_eq_of_lt (by omega)
    omega

theorem for_stride_eq (u : Nat) (debug Unroll : Bool) (fuel start : Nat) (n stride : Arg)
    (h : start < stride.val) (hf : stride_trips start n.val stride.val ≤ fuel)
    (ha : unroll_admitted u Unroll n stride) :
    for_stride u debug Unroll fuel start n stride =
      { calls := stride_calls start stride.val (stride_trips start n.val stride.val)
        status := Status.finished } := by
  have hs : 0 < stride.val := by omega
  have hloop := for_stride_loop_eq fuel start n.val stride.val hs hf
  unfold for_stride
  rw [MIGRAPHX_ASSERT_of_true debug _ h]
  simp only
  by_cases hc : (!n.is_integral && !stride.is_integral) = true
  · rw [if_pos hc]
    simp only [Bool.and_eq_true, Bool.not_eq_true'] at hc
    by_cases h1 : max_stride_iterations u n.val stride.val = 1
    · rw [if_pos h1]
      by_cases h3 : start < n.val
      · have hle := (max_stride_iterations_eq_one u n.val stride.val (by omega) hs).1 h1
        rw [stride_trips_one start n.val stride.val hs h3 (by omega)]
        by_cases h2 : stride.val > n.val
        · rw [if_pos h2, if_pos h3]
          simp [stride_calls, List.range_succ]
        · rw [if_neg h2]
          simp [stride_calls, List.range_succ]
      · rw [stride_trips_zero_of_ge start n.val stride.val hs (by omega)]
        have h2 : stride.val > n.val := by omega
        rw [if_pos h2, if_neg h3]
        simp [stride_calls]
    · rw [if_neg h1]
      cases hU : Unroll with
      | true =>
        have hlt := ha hU hc.1 hc.2
        simp only [if_true, MIGRAPHX_STATIC_ASSERT_FOR, static_assert, hlt, decide_True]
        exact for_stride_loop_unroll_eq u start n.val stride.val hs
      | false =>
        simpa using hloop
  · rw [if_neg hc]
    exact hloop

theorem stride_calls_positions_pairwise (start stride m : Nat) (hs : 0 < stride) :
    ((stride_calls start stride m).map Prod.fst).Pairwise (· < ·) := by
  simp only [stride_calls, List.map_map]
  rw [List.pairwise_map]
  refine List.Pairwise.imp ?_ (List.pairwise_lt_range _)
  intro a b hab
  simp only [Function.comp]
  have := Nat.mul_lt_mul_of_pos_left hab hs
  omega

/-! ## The stride loop visits the right positions (C1, C2) -/

theorem for_stride_loop_from_length_le (n stride : Nat) (hs : 0 < stride) :
    ∀ (fuel i k : Nat),
      (for_stride_loop_from n stride fuel i k).calls.length ≤ stride_trips i n stride := by
  intro fuel
  induction fuel with
  | zero =>
    intro i k
    unfold for_stride_loop_from
    split <;> simp
  | succ fuel ih =>
    intro i k
    unfold for_stride_loop_from
    by_cases hi : i < n
    · rw [if_pos hi, stride_trips_succ i n stride hs hi]
      simp only [List.length_cons]
      exact Nat.succ_le_succ (ih (i + stride) (k + 1))
    · rw [if_neg hi]
      simp

theorem max_stride_iterations_ceil_rat (index_max n stride : Nat) (hn : 1 ≤ n) (hs : 1 ≤ stride) :
    max_stride_iterations index_max n stride = ⌈(n : ℚ) / (stride : ℚ)⌉₊ := by
  rw [max_stride_iterations_pos index_max n stride hn]
  symm
  have hsq : (0 : ℚ) < (stride : ℚ) := by exact_mod_cast hs
  rw [Nat.ceil_eq_iff (Nat.succ_ne_zero _), Nat.succ_sub_one]
  have h1 : (n - 1) / stride * stride ≤ n - 1 := Nat.div_mul_le_self _ _
  have h2 : n - 1 < ((n - 1) / stride + 1) * stride := by
    have := Nat.div_add_mod (n - 1) stride
    have hr := Nat.mod_lt (n - 1) hs
    have e : ((n - 1) / stride + 1) * stride = stride * ((n - 1) / stride) + stride := by ring
    omega
  constructor
  · rw [lt_div_iff₀ hsq]
    have : (n - 1) / stride * stride < n := by omega
    exact_mod_cast this
  · rw [div_le_iff₀ hsq]
    have : n ≤ ((n - 1) / stride + 1) * stride := by omega
    exact_mod_cast this

theorem ngroup_pred (G L : Nat) (hG : 1 ≤ G) (hL : 1 ≤ L) :
    (G + L - 1) / L = (G - 1) / L + 1 := by
  have h : G + L - 1 = (G - 1) + L := by omega
  rw [h, Nat.add_div_right _ hL]

theorem compute_local_size_fixed (G L : Nat) (hG : 1 ≤ G) (hL : 1 ≤ L) (index_max : Nat)
    (debug : Bool) (hw : hip_state) :
    compute_local_size index_max (Build.fixed G L debug) hw =
      if hw.blockIdx_x = (G + L - 1) / L - 1 then 1 + (G - 1) % L else L := by
  have hNG := ngroup_pred G L hG hL
  simp only [compute_local_size, compute_global_size, MIGRAPHX_NGROUP, Build.fixed]
  have hpos : 1 ≤ (G + L - 1) / L := by
    rw [hNG]
    exact Nat.le_add_left 1 _
  rw [index_sub_one_pos index_max _ hpos, index_sub_one_pos index_max G hG]

theorem compute_local_size_dynamic (index_max : Nat) (debug : Bool) (hw : hip_state) :
    compute_local_size index_max (Build.dynamic debug) hw =
      if hw.blockIdx_x = index_sub_one index_max hw.gridDim_x then
        1 + index_sub_one index_max hw.blockDim_mul_gridDim % hw.blockDim_x
      else hw.blockDim_x := by
  simp [compute_local_size, compute_global_size, MIGRAPHX_NGROUP, Build.dynamic]

theorem MIGRAPHX_HAS_CONST_LOCAL_fixed (G L : Nat) (debug : Bool) :
    MIGRAPHX_HAS_CONST_LOCAL (Build.fixed G L debug) =
      (G % L == 0 || (G + L - 1) / L == 1) := by
  simp [MIGRAPHX_HAS_CONST_LOCAL, MIGRAPHX_NGROUP, Build.fixed]

/-- C3: for `G ≥ 1` and `L ≥ 1`, with the group count `NG = (G + L - 1) / L` of
`MIGRAPHX_NGROUP`, the values of `compute_local_size` over the groups
`0, …, NG - 1` add up to `G`, and every group before the last has size `L`. -/
theorem compute_local_size_sum (G L : Nat) (hG : 1 ≤ G) (hL : 1 ≤ L)
    (index_max : Nat) (debug : Bool) (hw : hip_state) :
    MIGRAPHX_NGROUP (Build.fixed G L debug) = some ((G + L - 1) / L) ∧
    ((List.range ((G + L - 1) / L)).map fun g =>
        compute_local_size index_max (Build.fixed G L debug) (hw.in_group g)).sum = G ∧
    ∀ g, g < (G + L - 1) / L - 1 →
      compute_local_size index_max (Build.fixed G L debug) (hw.in_group g) = L := by
  have hNG := ngroup_pred G L hG hL
  refine ⟨rfl, ?_, ?_⟩
  · rw [hNG, List.range_succ, List.map_append, List.sum_append]
    have h1 : ((List.range ((G - 1) / L)).map fun g =>
        compute_local_size index_max (Build.fixed G L debug) (hw.in_group g)) =
        (List.range ((G - 1) / L)).map fun _ => L := by
      apply List.map_congr_left
      intro g hg
      rw [List.mem_range] at hg
      rw [compute_local_size_fixed G L hG hL, hNG]
      simp only [hip_state.in_group, Nat.add_sub_cancel]
      rw [if_neg (by omega)]
    rw [h1]
    simp only [List.map_const', List.length_range, List.sum_replicate, smul_eq_mul,
      List.map_cons, List.map_nil, List.sum_cons, List.sum_nil, Nat.add_zero]
    rw [compute_local_size_fixed G L hG hL, hNG]
    simp only [hip_state.in_group, Nat.add_sub_cancel, if_true]
    have := Nat.div_add_mod (G - 1) L
    have hc : (G - 1) / L * L = L * ((G - 1) / L) := Nat.mul_comm _ _
    omega
  · intro g hg
    rw [compute_local_size_fixed G L hG hL]
    simp only [hip_state.in_group]
    rw [if_neg (by omega)]

/-- C3, the scenario of the specification: `G = 10`, `L = 4` gives the group
sizes `[4, 4, 2]`, which add up to 10. -/
theorem compute_local_size_sum_witness :
    ((List.range 3).map fun g =>
        compute_local_size 4294967295 (Build.fixed 10 4 true) (hip_state.in_group ⟨4, 3, 0, 0, 10⟩ g)) =
      [4, 4, 2] ∧
    ((List.range ((10 + 4 - 1) / 4)).map fun g =>
        compute_local_size 4294967295 (Build.fixed 10 4 true)
          (hip_state.in_group ⟨4, 3, 0, 0, 10⟩ g)).sum = 10 :=
  ⟨by decide,
    (compute_local_size_sum 10 4 (by decide) (by decide) 4294967295 true ⟨4, 3, 0, 0, 10⟩).2.1⟩

theorem compute_local_size_range_of_max (index_max : Nat) (b : Build) (hw : hip_state)
    (L : Nat) (hL : 1 ≤ L)
    (hb : index.max_nlocal b hw = .ok L) :
    1 ≤ compute_local_size index_max b hw ∧ compute_local_size index_max b hw ≤ L := by
  have hmod : ∀ x, 1 + x % L ≤ L := fun x => by
    have := Nat.mod_lt x hL
    omega
  have hsrc : (match b.MIGRAPHX_NLOCAL with
      | some L' => L'
      | none => hw.blockDim_x) = L := by
    unfold index.max_nlocal at hb
    cases hl : b.MIGRAPHX_NLOCAL with
    | some L' =>
      rw [hl] at hb
      simpa using hb
    | none =>
      rw [hl] at hb
      simp only at hb
      cases ha : MIGRAPHX_ASSERT b.MIGRAPHX_DEBUG (decide (hw.blockDim_x > 0)) with
      | some e => rw [ha] at hb; cases hb
      | none => rw [ha] at hb; simpa using hb
  unfold compute_local_size
  simp only [hsrc]
  split
  · exact ⟨by omega, hmod _⟩
  · exact ⟨hL, le_refl _⟩

theorem nlocal_computed_no_assert (index_max : Nat) (b : Build) (hw : hip_state)
    (h : 1 ≤ compute_local_size index_max b hw) :
    index.nlocal_computed index_max b hw ≠ .error Fault.assert_failed := by
  have hassert : MIGRAPHX_ASSERT b.MIGRAPHX_DEBUG
      (decide (compute_local_size index_max b hw > 0)) = none :=
    MIGRAPHX_ASSERT_of_true _ _ h
  unfold index.nlocal_computed
  rw [hassert]
  simp only
  split
  · rename_i e he
    split at he
    · unfold static_assert at he
      split at he
      · cases he
      · cases he
        intro hc
        cases hc
    · cases he
  · intro hc
    cases hc

theorem nlocal_const_no_assert (L : Nat) :
    index.nlocal_const L ≠ .error Fault.assert_failed := by
  unfold index.nlocal_const static_assert
  split
  · rename_i e he
    split at he
    · cases he
    · cases he
      intro hc
      cases hc
  · intro hc
    cases hc

theorem nlocal_no_assert (index_max : Nat) (b : Build) (hw : hip_state)
    (h : 1 ≤ compute_local_size index_max b hw) :
    index.nlocal index_max b hw ≠ .error Fault.assert_failed := by
  unfold index.nlocal
  split
  · exact nlocal_const_no_assert _
  · exact nlocal_computed_no_assert index_max b hw h

theorem nlocal_fixed (G L : Nat) (hG : 1 ≤ G) (hL : 1 ≤ L) (index_max : Nat)
    (debug : Bool) (hw : hip_state) :
    index.nlocal index_max (Build.fixed G L debug) hw =
      .ok (if MIGRAPHX_HAS_CONST_LOCAL (Build.fixed G L debug) then L
        else compute_local_size index_max (Build.fixed G L debug) hw) := by
  have hr := compute_local_size_range_of_max index_max (Build.fixed G L debug) hw L hL rfl
  have hassert : MIGRAPHX_ASSERT debug
      (decide (compute_local_size index_max (Build.fixed G L debug) hw > 0)) = none :=
    MIGRAPHX_ASSERT_of_true _ _ hr.1
  have hNG := ngroup_pred G L hG hL
  have hl : (Build.fixed G L debug).MIGRAPHX_NLOCAL = some L := rfl
  unfold index.nlocal
  rw [hl]
  by_cases hc : MIGRAPHX_HAS_CONST_LOCAL (Build.fixed G L debug) = true
  · have hpos : 0 < L := hL
    rw [hc, if_pos rfl]
    simp [index.nlocal_const, static_assert, hpos]
  · have hc' := hc
    rw [MIGRAPHX_HAS_CONST_LOCAL_fixed] at hc'
    simp only [Bool.or_eq_true, beq_iff_eq, not_or] at hc'
    have h1 : (G % L != 0) = true := by simpa using hc'.1
    have hq := Nat.zero_le ((G - 1) / L)
    have h2 : (G + L - 1) / L > 1 := by omega
    have hcf : MIGRAPHX_HAS_CONST_LOCAL (Build.fixed G L debug) = false := by
      simpa using hc
    rw [hcf]
    simp only [Bool.false_eq_true, if_false, index.nlocal_computed]
    simp only [Build.fixed, MIGRAPHX_NGROUP, static_assert, h1, h2, decide_True, Bool.and_self,
      if_true]
    simp only [Build.fixed] at hassert
    rw [hassert]

theorem const_local_value (G L : Nat) (hG : 1 ≤ G) (hL : 1 ≤ L) (index_max : Nat)
    (debug : Bool) (hw : hip_state) (hdiv : G % L = 0) :
    compute_local_size index_max (Build.fixed G L debug) hw = L := by
  rw [compute_local_size_fixed G L hG hL]
  split
  · have h1 := Nat.div_add_mod G L
    have h2 := Nat.div_add_mod (G - 1) L
    have h3 := Nat.mod_lt (G - 1) hL
    rw [hdiv] at h1
    have hq : 1 ≤ G / L := by
      rcases Nat.eq_zero_or_pos (G / L) with h0 | h0
      · rw [h0] at h1; omega
      · exact h0
    have h4 : (G - 1) % L = L - 1 := by
      have e : L * (G / L) = L * (G / L - 1) + L := by
        have : G / L = (G / L - 1) + 1 := by omega
        calc L * (G / L) = L * ((G / L - 1) + 1) := by rw [← this]
          _ = L * (G / L - 1) + L := by ring
      have hG1 : G - 1 = (L - 1) + L * (G / L - 1) := by omega
      rw [hG1, Nat.add_mul_mod_self_left, Nat.mod_eq_of_lt (by omega)]
    omega
  · rfl

/-- C4: for `G ≥ 1`, `L ≥ 1` and every group id, `compute_local_size` lies in
`[1, L]`; for the last group it is `1 + (G - 1) mod L`; `nlocal()` returns a
value in `[1, L]` and `max_nlocal()` returns `L`.  In every build whose
`max_nlocal()` is `L` the value lies in `[1, L]` and the assertion
`compute_local_size() > 0` of `nlocal()` does not fire. -/
theorem compute_local_size_in_range (G L : Nat) (hG : 1 ≤ G) (hL : 1 ≤ L) (index_max : Nat)
    (debug : Bool) (hw : hip_state) :
    (1 ≤ compute_local_size index_max (Build.fixed G L debug) hw ∧
      compute_local_size index_max (Build.fixed G L debug) hw ≤ L) ∧
    (hw.blockIdx_x = (G + L - 1) / L - 1 →
      compute_local_size index_max (Build.fixed G L debug) hw = 1 + (G - 1) % L) ∧
    (∃ v, index.nlocal index_max (Build.fixed G L debug) hw = .ok v ∧ 1 ≤ v ∧ v ≤ L) ∧
    index.max_nlocal (Build.fixed G L debug) hw = .ok L ∧
    (∀ (b : Build) (hw' : hip_state), index.max_nlocal b hw' = .ok L →
      1 ≤ compute_local_size index_max b hw' ∧ compute_local_size index_max b hw' ≤ L ∧
      index.nlocal index_max b hw' ≠ .error Fault.assert_failed) := by
  have hr := compute_local_size_range_of_max index_max (Build.fixed G L debug) hw L hL rfl
  refine ⟨hr, ?_, ?_, rfl, ?_⟩
  · intro hg
    rw [compute_local_size_fixed G L hG hL, if_pos hg]
  · refine ⟨_, nlocal_fixed G L hG hL index_max debug hw, ?_⟩
    split
    · exact ⟨hL, le_refl _⟩
    · exact hr
  · intro b hw' hb
    have hr' := compute_local_size_range_of_max index_max b hw' L hL hb
    exact ⟨hr'.1, hr'.2, nlocal_no_assert index_max b hw' hr'.1⟩

/-- C4 on the launch `G = 10`, `L = 4`: the last group (id 2) has size 2, and
`nlocal()` returns it. -/
theorem compute_local_size_in_range_witness :
    compute_local_size 4294967295 (Build.fixed 10 4 true) ⟨4, 3, 2, 0, 10⟩ = 2 ∧
    index.nlocal 4294967295 (Build.fixed 10 4 true) ⟨4, 3, 2, 0, 10⟩ = .ok 2 ∧
    (1 ≤ compute_local_size 4294967295 (Build.fixed 10 4 true) ⟨4, 3, 2, 0, 10⟩ ∧
      compute_local_size 4294967295 (Build.fixed 10 4 true) ⟨4, 3, 2, 0, 10⟩ ≤ 4) :=
  ⟨by decide, rfl,
    (compute_local_size_in_range 10 4 (by decide) (by decide) 4294967295 true ⟨4, 3, 2, 0, 10⟩).1⟩

theorem ngroup_fixed (G L : Nat) (hG : 1 ≤ G) (debug : Bool) (hw : hip_state) :
    index.ngroup (Build.fixed G L debug) hw = .ok (G / L) := by
  have hpos : 0 < G := hG
  simp [index.ngroup, index.nglobal, index.max_nlocal, Build.fixed, static_assert, hpos]

/-- C8, the failing launch: `G = 10`, `L = 4` has the three groups 0, 1, 2, but
`ngroup()` is `10 / 4 = 2`; in group 2 the index has `group = 2`, not below
`ngroup()`, and `group_stride` ends in the assertion of `for_stride` without
making a call. -/
theorem group_stride_asserts :
    MIGRAPHX_NGROUP (Build.fixed 10 4 true) = some 3 ∧
    index.ngroup (Build.fixed 10 4 true) ⟨4, 3, 2, 0, 10⟩ = .ok 2 ∧
    (make_index ⟨4, 3, 2, 0, 10⟩).group = 2 ∧
    compute_local_size 4294967295 (Build.fixed 10 4 true) ⟨4, 3, 2, 0, 10⟩ = 2 ∧
    index.group_stride 4294967295 (Build.fixed 10 4 true) ⟨4, 3, 2, 0, 10⟩
        (make_index ⟨4, 3, 2, 0, 10⟩) 20 (Arg.runtime 20) =
      { calls := [], status := Status.fault Fault.assert_failed } ∧
    index.group_stride 4294967295 (Build.dynamic true) ⟨4, 3, 2, 0, 10⟩
        (make_index ⟨4, 3, 2, 0, 10⟩) 20 (Arg.runtime 20) =
      { calls := [], status := Status.fault Fault.assert_failed } :=
  ⟨rfl, rfl, rfl, rfl, by decide, by decide⟩

theorem ngroup_eq_of_dvd (G L : Nat) (hL : 1 ≤ L) (hdiv : G % L = 0) :
    (G + L - 1) / L = G / L := by
  have h1 := Nat.div_add_mod G L
  rw [hdiv, Nat.add_zero] at h1
  have h2 : G + L - 1 = (L - 1) + L * (G / L) := by omega
  rw [h2, Nat.add_mul_div_left _ _ hL, Nat.div_eq_of_lt (by omega), Nat.zero_add]

/-- The group invariant where the launch divides evenly: for `G mod L = 0`
every group id below the group count is below `ngroup()`. -/
theorem group_lt_ngroup_of_dvd (G L : Nat) (hG : 1 ≤ G) (hL : 1 ≤ L) (hdiv : G % L = 0)
    (debug : Bool) (hw : hip_state) (hg : hw.blockIdx_x < (G + L - 1) / L) :
    index.ngroup (Build.fixed G L debug) hw = .ok (G / L) ∧ (make_index hw).group < G / L := by
  refine ⟨ngroup_fixed G L hG debug hw, ?_⟩
  rw [← ngroup_eq_of_dvd G L hL hdiv]
  exact hg

/-! ## Fixed-size and runtime-derived sizes (C9) -/

theorem nglobal_fixed (G L : Nat) (hG : 1 ≤ G) (debug : Bool) (hw : hip_state) :
    index.nglobal (Build.fixed G L debug) hw = .ok G := by
  have hpos : 0 < G := hG
  simp [index.nglobal, Build.fixed, static_assert, hpos]

theorem nglobal_dynamic (debug : Bool) (hw : hip_state) (h : 1 ≤ hw.blockDim_mul_gridDim) :
    index.nglobal (Build.dynamic debug) hw = .ok hw.blockDim_mul_gridDim := by
  have hpos : 0 < hw.blockDim_mul_gridDim := h
  simp [index.nglobal, Build.dynamic, compute_global_size, MIGRAPHX_ASSERT, hpos]

theorem max_nlocal_dynamic (debug : Bool) (hw : hip_state) (h : 1 ≤ hw.blockDim_x) :
    index.max_nlocal (Build.dynamic debug) hw = .ok hw.blockDim_x := by
  have hpos : 0 < hw.blockDim_x := h
  simp [index.max_nlocal, Build.dynamic, MIGRAPHX_ASSERT, hpos]

theorem nlocal_dynamic (index_max : Nat) (debug : Bool) (hw : hip_state)
    (h : 1 ≤ hw.blockDim_x) :
    index.nlocal index_max (Build.dynamic debug) hw =
      .ok (compute_local_size index_max (Build.dynamic debug) hw) := by
  have hr := compute_local_size_range_of_max index_max (Build.dynamic debug) hw hw.blockDim_x h
    (max_nlocal_dynamic debug hw h)
  have hassert : MIGRAPHX_ASSERT debug
      (decide (compute_local_size index_max (Build.dynamic debug) hw > 0)) = none :=
    MIGRAPHX_ASSERT_of_true _ _ hr.1
  have hc : MIGRAPHX_HAS_CONST_LOCAL (Build.dynamic debug) = false := rfl
  unfold index.nlocal
  rw [hc]
  simp only [index.nlocal_computed]
  simp only [Build.dynamic] at hassert ⊢
  rw [hassert]

theorem for_stride_loop_from_no_fault (n stride : Nat) (f : Fault) :
    ∀ (fuel i k : Nat), (for_stride_loop_from n stride fuel i k).status ≠ Status.fault f := by
  intro fuel
  induction fuel with
  | zero =>
    intro i k
    unfold for_stride_loop_from
    split <;> simp
  | succ fuel ih =>
    intro i k
    unfold for_stride_loop_from
    split
    · exact ih (i + stride) (k + 1)
    · simp

theorem for_stride_no_assert_of_lt (index_max : Nat) (debug Unroll : Bool) (fuel start : Nat)
    (n stride : Arg) (h : start < stride.val) :
    (for_stride index_max debug Unroll fuel start n stride).status ≠
      Status.fault Fault.assert_failed := by
  have hloop : (for_stride_loop fuel start n.val stride.val).status ≠
      Status.fault Fault.assert_failed :=
    for_stride_loop_from_no_fault n.val stride.val _ fuel start 0
  unfold for_stride
  rw [MIGRAPHX_ASSERT_of_true debug _ h]
  simp only
  split
  · split
    · split
      · split <;> simp
      · simp
    · split
      · unfold MIGRAPHX_STATIC_ASSERT_FOR static_assert
        split
        · rename_i e he
          split at he
          · cases he
          · cases he
            simp
        · simp [for_stride_loop_unroll]
      · exact hloop
  · exact hloop

theorem for_stride_assert_of_ge (index_max : Nat) (Unroll : Bool) (fuel start : Nat)
    (n stride : Arg) (h : stride.val ≤ start) :
    for_stride index_max true Unroll fuel start n stride =
      { calls := [], status := Status.fault Fault.assert_failed } := by
  have hnot : ¬ start < stride.val := by omega
  simp [for_stride, MIGRAPHX_ASSERT, hnot]

theorem unroll_fold_zero (start stride c : Nat) :
    fold (unroll_step start 0 stride) ([], 0) (sequence c) = ([], c) := by
  unfold fold sequence
  induction c with
  | zero => rfl
  | succ c ih =>
    rw [List.range_succ, List.foldl_append, ih]
    simp [unroll_step]

theorem for_stride_loop_zero (fuel start stride : Nat) :
    for_stride_loop fuel start 0 stride = { calls := [], status := Status.finished } := by
  unfold for_stride_loop
  cases fuel <;> simp [for_stride_loop_from]

theorem for_stride_loop_from_finished_iff (n stride : Nat) (hs : 0 < stride) :
    ∀ (fuel i k : Nat),
      (for_stride_loop_from n stride fuel i k).status = Status.finished ↔
        stride_trips i n stride ≤ fuel := by
  intro fuel
  induction fuel with
  | zero =>
    intro i k
    unfold for_stride_loop_from
    by_cases hi : i < n
    · rw [if_pos hi, stride_trips_succ i n stride hs hi]
      simp
    · rw [if_neg hi, stride_trips_zero_of_ge i n stride hs (by omega)]
      simp
  | succ fuel ih =>
    intro i k
    unfold for_stride_loop_from
    by_cases hi : i < n
    · rw [if_pos hi, stride_trips_succ i n stride hs hi]
      simp only [Nat.add_le_add_iff_right]
      exact ih (i + stride) (k + 1)
    · rw [if_neg hi, stride_trips_zero_of_ge i n stride hs (by omega)]
      simp

/-- C12: for `start < stride` the runtime loop terminates: it finishes exactly
when its budget covers `stride_trips` iterations, and that number is at most
`(n - 1) / stride + 1` for `n ≥ 1` and is 0 for `n = 0`.  So a budget of
`(n - 1) / stride + 1` iterations (none for `n = 0`) always suffices, and no
run makes more iterations than that. -/
theorem for_stride_loop_terminates (fuel start n stride : Nat) (h : start < stride) :
    stride_trips start n stride ≤ (if n = 0 then 0 else (n - 1) / stride + 1) ∧
    ((for_stride_loop fuel start n stride).status = Status.finished ↔
      stride_trips start n stride ≤ fuel) ∧
    ((if n = 0 then 0 else (n - 1) / stride + 1) ≤ fuel →
      (for_stride_loop fuel start n stride).status = Status.finished ∧
      (for_stride_loop fuel start n stride).iterations = stride_trips start n stride) ∧
    (for_stride_loop fuel start n stride).iterations ≤
      (if n = 0 then 0 else (n - 1) / stride + 1) ∧
    (∃ budget, (for_stride_loop budget start n stride).status = Status.finished) := by
  have hs : 0 < stride := by omega
  have hbound : stride_trips start n stride ≤ (if n = 0 then 0 else (n - 1) / stride + 1) := by
    by_cases hn : n = 0
    · rw [if_pos hn, stride_trips_zero_of_ge start n stride hs (by omega)]
    · rw [if_neg hn, ← max_stride_iterations_pos 0 n stride (by omega)]
      exact stride_trips_le_max 0 start n stride hs
  have hiff := for_stride_loop_from_finished_iff n stride hs fuel start 0
  refine ⟨hbound, hiff, ?_, ?_, ?_⟩
  · intro hf
    have hle : stride_trips start n stride ≤ fuel := le_trans hbound hf
    rw [for_stride_loop_eq fuel start n stride hs hle]
    exact ⟨rfl, stride_calls_length start stride _⟩
  · exact le_trans (for_stride_loop_from_length_le n stride hs fuel start 0) hbound
  · exact ⟨stride_trips start n stride,
      (for_stride_loop_from_finished_iff n stride hs _ start 0).2 (le_refl _)⟩

/-- C12 on `start = 1`, `n = 7`, `stride = 3`: the bound is 3 iterations; the
loop finishes after 2, and a budget of 1 is not enough. -/
theorem for_stride_loop_terminates_witness :
    (for_stride_loop 3 1 7 3).status = Status.finished ∧
    (for_stride_loop 3 1 7 3).iterations = 2 ∧
    (for_stride_loop 1 1 7 3).status = Status.out_of_fuel ∧
    stride_trips 1 7 3 ≤ (if 7 = 0 then 0 else (7 - 1) / 3 + 1) :=
  ⟨by decide, by decide, by decide,
    (for_stride_loop_terminates 3 1 7 3 (by decide)).1⟩

/-! ## Trip counts across lanes (C13) -/

theorem unroll_fold_steps (start n stride c : Nat) :
    (fold (unroll_step start n stride) ([], 0) (sequence c)).2 = c := by
  unfold fold sequence
  induction c with
  | zero => rfl
  | succ c ih =>
    rw [List.range_succ, List.foldl_append]
    simp only [List.foldl_cons, List.foldl_nil, unroll_step]
    rw [ih]

theorem stride_trips_ge_floor (start n stride : Nat) (hs : 0 < stride) (h : start < stride) :
    n / stride ≤ stride_trips start n stride := by
  rcases Nat.eq_zero_or_pos (n / stride) with h0 | hpos
  · rw [h0]
    exact Nat.zero_le _
  · have hk : n / stride - 1 < stride_trips start n stride := by
      rw [stride_trips_spec start n stride _ hs]
      have hm := Nat.div_add_mod n stride
      have e : stride * (n / stride) = stride * (n / stride - 1) + stride := by
        have : n / stride = (n / stride - 1) + 1 := by omega
        calc stride * (n / stride) = stride * ((n / stride - 1) + 1) := by rw [← this]
          _ = stride * (n / stride - 1) + stride := by ring
      omega
    omega

theorem stride_trips_le_floor_succ (start n stride : Nat) (hs : 0 < stride) :
    stride_trips start n stride ≤ n / stride + 1 := by
  by_contra hc
  have hlt : n / stride + 1 < stride_trips start n stride := Nat.lt_of_not_le hc
  have h := (stride_trips_spec start n stride _ hs).1 hlt
  have hm := Nat.div_add_mod n stride
  have hr := Nat.mod_lt n hs
  have e : stride * (n / stride + 1) = stride * (n / stride) + stride := by ring
  rw [e] at h
  omega

theorem sub_w_one (w n : Nat) (hn1 : 1 ≤ n) (hn : n < 2 ^ w) : sub_w w n 1 = n - 1 := by
  unfold sub_w
  have h2 : 1 < 2 ^ w := by omega
  rw [Nat.mod_eq_of_lt h2]
  have e : n + 2 ^ w - 1 = (n - 1) + 2 ^ w := by omega
  rw [e, Nat.add_mod_right, Nat.mod_eq_of_lt (by omega)]

/-- C14: on a `w`-bit `index_int`, for `1 ≤ n < 2 ^ w` and `1 ≤ stride` (in
particular every `stride < 2 ^ w`), no step of `(n - 1) / stride + 1` wraps: `n - 1` is the exact difference, the
quotient plus one stays below `2 ^ w`, and the result is the ceiling of
`n / stride`, which is also what the unbounded `max_stride_iterations` gives. -/
theorem max_stride_iterations_no_wrap (w n stride : Nat) (hn1 : 1 ≤ n) (hn : n < 2 ^ w)
    (hs1 : 1 ≤ stride) :
    ((sub_w w n 1 : Nat) : ℤ) = (n : ℤ) - 1 ∧
    sub_w w n 1 / stride + 1 < 2 ^ w ∧
    max_stride_iterations_w w n stride = (n - 1) / stride + 1 ∧
    max_stride_iterations_w w n stride = ⌈(n : ℚ) / (stride : ℚ)⌉₊ ∧
    max_stride_iterations_w w n stride = max_stride_iterations (2 ^ w - 1) n stride := by
  have hsub := sub_w_one w n hn1 hn
  have hq : (n - 1) / stride ≤ n - 1 := Nat.div_le_self _ _
  have hlt : (n - 1) / stride + 1 < 2 ^ w := by omega
  have hval : max_stride_iterations_w w n stride = (n - 1) / stride + 1 := by
    unfold max_stride_iterations_w add_w
    rw [hsub, Nat.mod_eq_of_lt hlt]
  refine ⟨?_, ?_, hval, ?_, ?_⟩
  · rw [hsub]
    omega
  · rw [hsub]
    exact hlt
  · rw [hval, ← max_stride_iterations_pos 0 n stride hn1]
    exact max_stride_iterations_ceil_rat 0 n stride hn1 hs1
  · rw [hval, max_stride_iterations_pos (2 ^ w - 1) n stride hn1]

/-- C14 on 32 bits: the largest extent with stride 1 gives `2 ^ 32 - 1`
iterations without wrapping, and `n = 7`, `stride = 3` gives 3. -/
theorem max_stride_iterations_no_wrap_witness :
    max_stride_iterations_w 32 4294967295 1 = 4294967295 ∧
    max_stride_iterations_w 32 7 3 = 3 ∧
    sub_w 32 4294967295 1 / 1 + 1 < 2 ^ 32 ∧
    max_stride_iterations_w 32 7 3 = ⌈((7 : Nat) : ℚ) / ((3 : Nat) : ℚ)⌉₊ :=
  ⟨by decide, by decide,
    (max_stride_iterations_no_wrap 32 4294967295 1 (by decide) (by decide) (by decide)).2.1,
    (max_stride_iterations_no_wrap 32 7 3 (by decide) (by decide) (by decide)).2.2.2.1⟩

/-- Outside the range of C14: at `n = 0` with stride 1 the final `+ 1` wraps
to 0 on 32 bits. -/
theorem max_stride_iterations_w_zero_extent :
    max_stride_iterations_w 32 0 1 = 0 := by
  decide

/-! ## The single-iteration path (C15) -/

theorem for_stride_single (index_max : Nat) (debug Unroll : Bool) (fuel start n stride : Nat)
    (hassert : debug = false ∨ start < stride)
    (hone : max_stride_iterations index_max n stride = 1) :
    for_stride index_max debug Unroll fuel start (Arg.constant n) (Arg.constant stride) =
      { calls := if stride > n then (if start < n then [(start, 0)] else []) else [(start, 0)]
        status := Status.finished } := by
  have ha : MIGRAPHX_ASSERT debug (decide (start < stride)) = none := by
    rcases hassert with hd | hlt
    · simp [MIGRAPHX_ASSERT, hd]
    · exact MIGRAPHX_ASSERT_of_true debug _ hlt
  unfold for_stride
  simp only [Arg.val, Arg.is_integral]
  rw [ha]
  simp only [Bool.not_false, Bool.and_self, if_true]
  rw [if_pos hone]
  by_cases h2 : stride > n
  · rw [if_pos h2, if_pos h2]
    by_cases h3 : start < n
    · rw [if_pos h3, if_pos h3]
    · rw [if_neg h3, if_neg h3]
  · rw [if_neg h2, if_neg h2]

theorem for_stride_loop_of_ge (fuel start n stride : Nat) (h : n ≤ start) :
    for_stride_loop fuel start n stride = { calls := [], status := Status.finished } := by
  have hlt : ¬ start < n := by omega
  unfold for_stride_loop
  cases fuel <;> simp [for_stride_loop_from, hlt]

theorem global_lt_of_thread (G L g l : Nat) (hG : 1 ≤ G) (hL : 1 ≤ L)
    (hg : g < (G + L - 1) / L)
    (hl : l < (if g = (G + L - 1) / L - 1 then 1 + (G - 1) % L else L)) :
    g * L + l < G := by
  have hNG := ngroup_pred G L hG hL
  have hm := Nat.div_add_mod (G - 1) L
  have hc : (G - 1) / L * L = L * ((G - 1) / L) := Nat.mul_comm _ _
  rw [hNG, Nat.add_sub_cancel] at hl
  by_cases hq : g = (G - 1) / L
  · rw [if_pos hq] at hl
    rw [hq]
    omega
  · rw [if_neg hq] at hl
    have hlt : g + 1 ≤ (G - 1) / L := by omega
    have hmul : (g + 1) * L ≤ (G - 1) / L * L := Nat.mul_le_mul_right L hlt
    have e : (g + 1) * L = g * L + L := by ring
    omega

theorem pair_of_global (L g l g' l' : Nat) (hl : l < L) (hl' : l' < L)
    (h : g * L + l = g' * L + l') : g = g' ∧ l = l' := by
  have hL : 0 < L := by omega
  have e1 : (g * L + l) / L = g := by
    rw [Nat.add_comm, Nat.mul_comm, Nat.add_mul_div_left _ _ hL, Nat.div_eq_of_lt hl,
      Nat.zero_add]
  have e2 : (g' * L + l') / L = g' := by
    rw [Nat.add_comm, Nat.mul_comm, Nat.add_mul_div_left _ _ hL, Nat.div_eq_of_lt hl',
      Nat.zero_add]
  have hgg : g = g' := by
    rw [← e1, ← e2, h]
  subst hgg
  exact ⟨rfl, by omega⟩

/-- C16: in a launch of `G ≥ 1` threads in groups of `L ≥ 1`, thread `l` of
group `g` (with `g` below the group count and `l` below `compute_local_size`
of its group) gets the global position `g * L + l` from `make_index`.  This
position is below `G`, two different threads get different positions, and
every position below `G` is the position of a thread.  `nglobal()` is `G`, so
`global_stride` never ends in the assertion `start < stride`, with fixed sizes
as with sizes read from the launch state. -/
theorem global_identity (G L : Nat) (hG : 1 ≤ G) (hL : 1 ≤ L) (index_max : Nat)
    (debug : Bool) :
    (∀ g l, g < (G + L - 1) / L →
      l < compute_local_size index_max (Build.fixed G L debug) (thread_state G L g l) →
      (make_index (thread_state G L g l)).global = g * L + l ∧
      (make_index (thread_state G L g l)).global < G) ∧
    (∀ g l g' l', g < (G + L - 1) / L →
      l < compute_local_size index_max (Build.fixed G L debug) (thread_state G L g l) →
      g' < (G + L - 1) / L →
      l' < compute_local_size index_max (Build.fixed G L debug) (thread_state G L g' l') →
      (make_index (thread_state G L g l)).global =
        (make_index (thread_state G L g' l')).global →
      g = g' ∧ l = l') ∧
    (∀ x, x < G → ∃ g l, g < (G + L - 1) / L ∧
      l < compute_local_size index_max (Build.fixed G L debug) (thread_state G L g l) ∧
      (make_index (thread_state G L g l)).global = x) ∧
    (∀ g l fuel n, g < (G + L - 1) / L →
      l < compute_local_size index_max (Build.fixed G L debug) (thread_state G L g l) →
      index.nglobal (Build.fixed G L debug) (thread_state G L g l) = .ok G ∧
      index.nglobal (Build.dynamic debug) (thread_state G L g l) = .ok G ∧
      (index.global_stride index_max (Build.fixed G L debug) (thread_state G L g l)
        (make_index (thread_state G L g l)) fuel n).status ≠
          Status.fault Fault.assert_failed ∧
      (index.global_stride index_max (Build.dynamic debug) (thread_state G L g l)
        (make_index (thread_state G L g l)) fuel n).status ≠
          Status.fault Fault.assert_failed) := by
  have hNG := ngroup_pred G L hG hL
  have hcls : ∀ g l, compute_local_size index_max (Build.fixed G L debug)
      (thread_state G L g l) =
      if g = (G + L - 1) / L - 1 then 1 + (G - 1) % L else L := fun g l =>
    compute_local_size_fixed G L hG hL index_max debug (thread_state G L g l)
  have hglob : ∀ g l, (make_index (thread_state G L g l)).global = g * L + l :=
    fun _ _ => rfl
  have hmodlt := Nat.mod_lt (G - 1) hL
  have hlL : ∀ g l, l < compute_local_size index_max (Build.fixed G L debug)
      (thread_state G L g l) → l < L := by
    intro g l hl
    rw [hcls] at hl
    split at hl <;> omega
  refine ⟨?_, ?_, ?_, ?_⟩
  · intro g l hg hl
    rw [hcls] at hl
    exact ⟨hglob g l, by rw [hglob]; exact global_lt_of_thread G L g l hG hL hg hl⟩
  · intro g l g' l' _ hl _ hl' h
    rw [hglob, hglob] at h
    exact pair_of_global L g l g' l' (hlL g l hl) (hlL g' l' hl') h
  · intro x hx
    have hxle : x / L ≤ (G - 1) / L := Nat.div_le_div_right (by omega)
    refine ⟨x / L, x % L, by omega, ?_, ?_⟩
    · rw [hcls, hNG, Nat.add_sub_cancel]
      by_cases hq : x / L = (G - 1) / L
      · rw [if_pos hq]
        have h1 := Nat.div_add_mod x L
        have h2 := Nat.div_add_mod (G - 1) L
        rw [hq] at h1
        omega
      · rw [if_neg hq]
        exact Nat.mod_lt x hL
    · rw [hglob]
      exact Nat.div_add_mod' x L
  · intro g l fuel n hg hl
    rw [hcls] at hl
    have hlt : g * L + l < G := global_lt_of_thread G L g l hG hL hg hl
    have hf : index.nglobal (Build.fixed G L debug) (thread_state G L g l) = .ok G :=
      nglobal_fixed G L hG debug _
    have hd : index.nglobal (Build.dynamic debug) (thread_state G L g l) = .ok G :=
      nglobal_dynamic debug (thread_state G L g l) hG
    refine ⟨hf, hd, ?_, ?_⟩
    · unfold index.global_stride
      rw [hf]
      exact for_stride_no_assert_of_lt index_max _ false fuel _ n _ (by
        rw [hglob]
        exact hlt)
    · unfold index.global_stride
      rw [hd]
      exact for_stride_no_assert_of_lt index_max _ false fuel _ n _ (by
        rw [hglob]
        exact hlt)

/-- C16 on the launch `G = 10`, `L = 4`: the threads of the groups 0, 1, 2 get
the positions `0..3`, `4..7` and `8, 9`. -/
theorem global_identity_witness :
    ((List.range 3).map fun g =>
      (List.range (compute_local_size 4294967295 (Build.fixed 10 4 true)
        (thread_state 10 4 g 0))).map fun l => (make_index (thread_state 10 4 g l)).global) =
      [[0, 1, 2, 3], [4, 5, 6, 7], [8, 9]] ∧
    ∀ x, x < 10 → ∃ g l, g < (10 + 4 - 1) / 4 ∧
      l < compute_local_size 4294967295 (Build.fixed 10 4 true) (thread_state 10 4 g l) ∧
      (make_index (thread_state 10 4 g l)).global = x :=
  ⟨by decide, (global_identity 10 4 (by decide) (by decide) 4294967295 true).2.2.1⟩

/-! ## The runtime loop on a `w`-bit `index_int` (C17) -/

theorem for_stride_loop_from_w_eq (w n stride : Nat) (hs : 0 < stride)
    (hb : n - 1 + stride < 2 ^ w) :
    ∀ (fuel i k : Nat), k ≤ i →
      for_stride_loop_from_w w n stride fuel i k = for_stride_loop_from n stride fuel i k := by
  intro fuel
  induction fuel with
  | zero =>
    intro i k _
    rfl
  | succ fuel ih =>
    intro i k hk
    unfold for_stride_loop_from_w for_stride_loop_from
    by_cases hi : i < n
    · have e1 : add_w w i stride = i + stride := Nat.mod_eq_of_lt (by omega)
      have e2 : add_w w k 1 = k + 1 := Nat.mod_eq_of_lt (by omega)
      rw [if_pos hi, if_pos hi, e1, e2, ih (i + stride) (k + 1) (by omega)]
    · rw [if_neg hi, if_neg hi]

theorem for_stride_loop_from_bounds (n stride : Nat) (hs : 0 < stride) :
    ∀ (fuel i k : Nat), k ≤ i → ∀ c ∈ (for_stride_loop_from n stride fuel i k).calls,
      c.1 < n ∧ c.2 ≤ c.1 := by
  intro fuel
  induction fuel with
  | zero =>
    intro i k _ c hc
    unfold for_stride_loop_from at hc
    split at hc <;> simp at hc
  | succ fuel ih =>
    intro i k hk c hc
    unfold for_stride_loop_from at hc
    by_cases hi : i < n
    · rw [if_pos hi] at hc
      simp only [List.mem_cons] at hc
      rcases hc with hc | hc
      · subst hc
        exact ⟨hi, hk⟩
      · exact ih (i + stride) (k + 1) (by omega) c hc
    · rw [if_neg hi] at hc
      simp at hc

theorem wrapping_loop_never_finishes :
    ∀ (fuel k : Nat),
      (for_stride_loop_from_w 32 2147483649 2147483648 fuel 0 k).status =
        Status.out_of_fuel ∧
      (for_stride_loop_from_w 32 2147483649 2147483648 fuel 2147483648 k).status =
        Status.out_of_fuel := by
  intro fuel
  induction fuel with
  | zero =>
    intro k
    constructor <;> rfl
  | succ fuel ih =>
    intro k
    constructor
    · unfold for_stride_loop_from_w
      rw [if_pos (by decide)]
      have e : add_w 32 0 2147483648 = 2147483648 := by decide
      rw [e]
      exact (ih (add_w 32 k 1)).2
    · unfold for_stride_loop_from_w
      rw [if_pos (by decide)]
      have e : add_w 32 2147483648 2147483648 = 0 := by decide
      rw [e]
      exact (ih (add_w 32 k 1)).1

/-- C17: on a `w`-bit `index_int`, for `start < stride` and
`n - 1 + stride < 2 ^ w` the loop `for(i = start; i < n; i += stride)` never
wraps (at every call `i + stride` and `k + 1` stay below `2 ^ w`) and its run
is the run of the loop over unbounded naturals, for every budget.  Beyond the
bound the two differ: on 32 bits with `start = 0`, `stride = 2 ^ 31`,
`n = 2 ^ 31 + 1` the unbounded loop finishes after the calls `(0, 0)`,
`(2 ^ 31, 1)`, while the 32-bit loop returns to position 0 and never finishes. -/
theorem loop_wrap_around (w fuel start n stride : Nat) (h : start < stride)
    (hb : n - 1 + stride < 2 ^ w) :
    for_stride_loop_w w fuel start n stride = for_stride_loop fuel start n stride ∧
    (∀ c ∈ (for_stride_loop_w w fuel start n stride).calls,
      c.1 + stride < 2 ^ w ∧ c.2 + 1 < 2 ^ w) ∧
    ((0 : Nat) < 2147483648 ∧ 2147483649 - 1 + 2147483648 ≥ 2 ^ 32 ∧
      for_stride_loop 2 0 2147483649 2147483648 =
        { calls := [(0, 0), (2147483648, 1)], status := Status.finished } ∧
      for_stride_loop_w 32 3 0 2147483649 2147483648 =
        { calls := [(0, 0), (2147483648, 1), (0, 2)], status := Status.out_of_fuel } ∧
      ∀ budget, (for_stride_loop_w 32 budget 0 2147483649 2147483648).status =
        Status.out_of_fuel) := by
  have hs : 0 < stride := by omega
  have heq : for_stride_loop_w w fuel start n stride = for_stride_loop fuel start n stride :=
    for_stride_loop_from_w_eq w n stride hs hb fuel start 0 (Nat.zero_le _)
  refine ⟨heq, ?_, by decide, by decide, by decide, by decide, ?_⟩
  · intro c hc
    rw [heq] at hc
    have hcb := for_stride_loop_from_bounds n stride hs fuel start 0 (Nat.zero_le _) c hc
    omega
  · intro budget
    exact (wrapping_loop_never_finishes budget 0).1

/-- C17 on 8 bits: with `start = 1`, `stride = 100`, `n = 156` (so
`n - 1 + stride = 255`) the 8-bit loop makes the calls `(1, 0)`, `(101, 1)` and
finishes, as the unbounded loop does. -/
theorem loop_wrap_around_witness :
    for_stride_loop_w 8 2 1 156 100 =
      { calls := [(1, 0), (101, 1)], status := Status.finished } ∧
    for_stride_loop_w 8 2 1 156 100 = for_stride_loop 2 1 156 100 :=
  ⟨by decide, (loop_wrap_around 8 2 1 156 100 (by decide) (by decide)).1⟩

/-! ## The two variants of `nlocal()` (C18) -/

/-- C18: for `G ≥ 1`, `L ≥ 1` and `NG = (G + L - 1) / L`, exactly one of
`G mod L = 0 ∨ NG = 1` (the condition of `MIGRAPHX_HAS_CONST_LOCAL`) and
`G mod L ≠ 0 ∧ NG > 1` (the condition of the static assertion in the computed
`nlocal()`) holds.  So when the computed `nlocal()` is the variant compiled
with fixed sizes, its static assertion passes and it returns
`compute_local_size()`. -/
theorem nlocal_dichotomy (G L : Nat) (hG : 1 ≤ G) (hL : 1 ≤ L) (index_max : Nat)
    (debug : Bool) (hw : hip_state) :
    ((G % L = 0 ∨ (G + L - 1) / L = 1) ∨ (G % L ≠ 0 ∧ (G + L - 1) / L > 1)) ∧
    ¬ ((G % L = 0 ∨ (G + L - 1) / L = 1) ∧ (G % L ≠ 0 ∧ (G + L - 1) / L > 1)) ∧
    (MIGRAPHX_HAS_CONST_LOCAL (Build.fixed G L debug) = true ↔
      (G % L = 0 ∨ (G + L - 1) / L = 1)) ∧
    (MIGRAPHX_HAS_CONST_LOCAL (Build.fixed G L debug) = false ↔
      (G % L ≠ 0 ∧ (G + L - 1) / L > 1)) ∧
    (MIGRAPHX_HAS_CONST_LOCAL (Build.fixed G L debug) = false →
      index.nlocal_computed index_max (Build.fixed G L debug) hw =
        .ok (compute_local_size index_max (Build.fixed G L debug) hw) ∧
      index.nlocal index_max (Build.fixed G L debug) hw =
        index.nlocal_computed index_max (Build.fixed G L debug) hw) := by
  have hNG := ngroup_pred G L hG hL
  have hq := Nat.zero_le ((G - 1) / L)
  have hconst : MIGRAPHX_HAS_CONST_LOCAL (Build.fixed G L debug) = true ↔
      (G % L = 0 ∨ (G + L - 1) / L = 1) := by
    rw [MIGRAPHX_HAS_CONST_LOCAL_fixed]
    simp only [Bool.or_eq_true, beq_iff_eq]
  have hnot : MIGRAPHX_HAS_CONST_LOCAL (Build.fixed G L debug) = false ↔
      (G % L ≠ 0 ∧ (G + L - 1) / L > 1) := by
    rw [← Bool.not_eq_true, hconst]
    constructor
    · intro h
      push_neg at h
      exact ⟨h.1, by omega⟩
    · rintro ⟨h1, h2⟩ h
      rcases h with h | h
      · exact h1 h
      · omega
  refine ⟨?_, ?_, hconst, hnot, ?_⟩
  · by_cases h1 : G % L = 0
    · exact Or.inl (Or.inl h1)
    · by_cases h2 : (G + L - 1) / L = 1
      · exact Or.inl (Or.inr h2)
      · exact Or.inr ⟨h1, by omega⟩
  · rintro ⟨h | h, h1, h2⟩
    · exact h1 h
    · omega
  · intro hc
    have hfix := nlocal_fixed G L hG hL index_max debug hw
    have hsel : index.nlocal index_max (Build.fixed G L debug) hw =
        index.nlocal_computed index_max (Build.fixed G L debug) hw := by
      unfold index.nlocal
      rw [hc]
    rw [hc] at hfix
    simp only [Bool.false_eq_true, if_false] at hfix
    exact ⟨by rw [← hsel, hfix], hsel⟩

/-- C18 on the launches `G = 10`, `L = 4` (computed `nlocal()`, 2 in the last
group) and `G = 8`, `L = 4` (constant `nlocal()`). -/
theorem nlocal_dichotomy_witness :
    MIGRAPHX_HAS_CONST_LOCAL (Build.fixed 10 4 true) = false ∧
    index.nlocal_computed 4294967295 (Build.fixed 10 4 true) (thread_state 10 4 2 0) = .ok 2 ∧
    MIGRAPHX_HAS_CONST_LOCAL (Build.fixed 8 4 true) = true ∧
    ¬ ((10 % 4 = 0 ∨ (10 + 4 - 1) / 4 = 1) ∧ (10 % 4 ≠ 0 ∧ (10 + 4 - 1) / 4 > 1)) :=
  ⟨by decide, rfl, by decide,
    (nlocal_dichotomy 10 4 (by decide) (by decide) 4294967295 true
      (thread_state 10 4 2 0)).2.1⟩

end migraphx
